import Mathlib

/-!
Verification of the core of the fantasy-draft helper (draft_helper.py):
name normalization, last-name extraction, the two-tier name matcher with
its disambiguation selection, availability marking, the undo history, the
top-N views, the save projection, and the load-time column handling.

Strings are modelled as lists of Unicode code points (`List Nat`, ASCII in
practice), so every character-class test from the Python regexes becomes an
arithmetic predicate on code points.
-/

set_option autoImplicit false

namespace DraftHelper

/-- Convert a Lean string literal to the code-point list model (used only to
write concrete inputs). -/
def str (s : String) : List Nat :=
  s.data.map Char.toNat

/-- Code point of an ASCII uppercase letter (regex class `[A-Z]`). -/
def isAsciiUpper (c : Nat) : Bool :=
  decide (65 ≤ c ∧ c ≤ 90)

/-- Code point of an ASCII lowercase letter (regex class `[a-z]`). -/
def isAsciiLower (c : Nat) : Bool :=
  decide (97 ≤ c ∧ c ≤ 122)

/-- Regex class `[a-zA-Z]`, also Python `str.isalpha` for ASCII input. -/
def isAsciiAlpha (c : Nat) : Bool :=
  isAsciiUpper c || isAsciiLower c

/-- Python whitespace (`\s`, `str.strip`, `str.split`): space, tab, LF, CR,
vertical tab, form feed. -/
def isPySpace (c : Nat) : Bool :=
  decide (c = 32 ∨ c = 9 ∨ c = 10 ∨ c = 13 ∨ c = 11 ∨ c = 12)

/-- Characters kept by `re.sub(r"[^a-zA-Z'\s]", '', name)`: letters,
apostrophe (code 39), whitespace. -/
def keepChar (c : Nat) : Bool :=
  isAsciiAlpha c || c == 39 || isPySpace c

/-- Python `str.lower` on the characters that survive the keep filter
(ASCII). -/
def toLowerChar (c : Nat) : Nat :=
  if 65 ≤ c ∧ c ≤ 90 then c + 32 else c

/-- Python `str.upper` (ASCII), used by the position filter. -/
def toUpperChar (c : Nat) : Nat :=
  if 97 ≤ c ∧ c ≤ 122 then c - 32 else c

/-- `s.upper()` on a whole string. -/
def upperStr (s : List Nat) : List Nat :=
  s.map toUpperChar

/-- Python `str.strip()`: drop leading and trailing whitespace. -/
def pyStrip (s : List Nat) : List Nat :=
  ((s.dropWhile isPySpace).reverse.dropWhile isPySpace).reverse

/-- Worker for `str.split()`: `acc` holds the current (reversed) token. -/
def splitWsAux : List Nat → List Nat → List (List Nat)
  | [], acc => if acc.isEmpty then [] else [acc.reverse]
  | c :: cs, acc =>
    if isPySpace c then
      (if acc.isEmpty then splitWsAux cs [] else acc.reverse :: splitWsAux cs [])
    else
      splitWsAux cs (c :: acc)

/-- Python `str.split()` with no separator: split on whitespace runs,
no empty tokens. -/
def splitWs (s : List Nat) : List (List Nat) :=
  splitWsAux s []

/-- `' '.join(tokens)`. -/
def joinSpace : List (List Nat) → List Nat
  | [] => []
  | [t] => t
  | t :: ts => t ++ 32 :: joinSpace ts

/-- The suffix tokens dropped by the normalizer: jr, sr, ii, iii, iv, v. -/
def suffixTokens : List (List Nat) :=
  [str "jr", str "sr", str "ii", str "iii", str "iv", str "v"]

/-- `normalize_name` (draft_helper.py lines 14-19): keep letters,
apostrophes and whitespace, strip, lowercase, split, drop suffix tokens,
rejoin with single spaces. -/
def normalize_name (s : List Nat) : List Nat :=
  joinSpace
    ((splitWs ((pyStrip (s.filter keepChar)).map toLowerChar)).filter
      (fun t => !(suffixTokens.contains t)))

/-- The token list whose join is `normalize_name s`. -/
def normTokens (s : List Nat) : List (List Nat) :=
  (splitWs ((pyStrip (s.filter keepChar)).map toLowerChar)).filter
    (fun t => !(suffixTokens.contains t))

/-- `last_name` (lines 21-24): last whitespace token of the normalized
name, or the normalized name itself when it has no tokens. -/
def last_name (s : List Nat) : List Nat :=
  match (splitWs (normalize_name s)).getLast? with
  | some t => t
  | none => normalize_name s

/-- Does `needle` start at the head of `hay`? (helper for substring test) -/
def needleAtHead : List Nat → List Nat → Bool
  | [], _ => true
  | _ :: _, [] => false
  | a :: as, b :: bs => a == b && needleAtHead as bs

/-- Python substring membership, i.e. `needle in hay` /
`Series.str.contains(needle, regex=False)`. -/
def containsSub : List Nat → List Nat → Bool
  | [], needle => needleAtHead needle []
  | h :: t, needle => needleAtHead needle (h :: t) || containsSub t needle

/-- The per-player columns that survive a `save` (the non-derived fields).
`pts` is the value of the primary sort column chosen at load (`AdjPts`,
falling back to `ProjPts`); `rank` is the `Rank` column. -/
structure Player where
  fullName : List Nat
  position : List Nat
  team : List Nat
  pts : Int
  rank : Int
deriving DecidableEq

/-- One row of the loaded dataframe: the player columns plus the helper
columns `__name_norm`, `__lname`, `__available` added at load. -/
structure Row where
  player : Player
  name_norm : List Nat
  lname : List Nat
  available : Bool
deriving DecidableEq

/-- Row construction at load time (lines 66-68): derived columns from
`Full Name`, availability initially true. -/
def mkRow (p : Player) : Row :=
  { player := p
    name_norm := normalize_name p.fullName
    lname := last_name p.fullName
    available := true }

/-- `df.loc[i]` on the positional index 0..n-1 left by `reset_index`. -/
def availOf (rows : List Row) (i : Nat) : Bool :=
  match rows.get? i with
  | some r => r.available
  | none => false

/-- `df.loc[i, '__available'] = b`: out-of-range indices leave the pool
unchanged (they cannot occur in the program). -/
def setAvail (rows : List Row) (i : Nat) (b : Bool) : List Row :=
  match rows.get? i with
  | some r => rows.set i { r with available := b }
  | none => rows

/-- Indices (df row labels, in pool order) of the rows satisfying a boolean
mask, i.e. `df[mask].index`. -/
def idxFilter (rows : List Row) (p : Row → Bool) : List Nat :=
  (List.range rows.length).filter (fun i =>
    match rows.get? i with
    | some r => p r
    | none => false)

/-- Indices of the currently available rows, in pool order. -/
def availIdxs (rows : List Row) : List Nat :=
  idxFilter rows (fun r => r.available)

/-- Tier 1 of `mark_drafted` (lines 96-100): available rows whose
normalized name contains the normalized query as a substring. -/
def tier1 (rows : List Row) (q : List Nat) : List Nat :=
  idxFilter rows (fun r => r.available && containsSub r.name_norm (normalize_name q))

/-- `re.sub(r"[^a-zA-Z]", '', q).lower()` (line 104). -/
def stripLetters (q : List Nat) : List Nat :=
  (q.filter isAsciiAlpha).map toLowerChar

/-- Tier 2 of `mark_drafted` (lines 102-106): available rows whose
`__lname` exactly equals the letters-only lowercased query. -/
def tier2 (rows : List Row) (q : List Nat) : List Nat :=
  idxFilter rows (fun r => r.available && r.lname == stripLetters q)

/-- Candidate indices computed by `mark_drafted` (lines 91-106): the
substring tier runs only when the stripped query has a space and a letter;
the last-name tier runs when the first tier was skipped or empty. -/
def resolveCandidates (rows : List Row) (query : List Nat) : List Nat :=
  let q := pyStrip query
  if q.contains 32 && q.any isAsciiAlpha then
    let c1 := tier1 rows q
    if c1.isEmpty then tier2 rows q else c1
  else
    tier2 rows q

/-- Outcome of resolving a query (lines 108-119): no match, a unique
match, or an ambiguous candidate list (in pool order). -/
inductive MatchResult where
  | noMatch
  | unique (idx : Nat)
  | ambiguous (idxs : List Nat)
deriving DecidableEq

/-- Classify the candidate list as the Matcher result. -/
def resolve (rows : List Row) (query : List Nat) : MatchResult :=
  match resolveCandidates rows query with
  | [] => .noMatch
  | [i] => .unique i
  | l => .ambiguous l

/-- A valid disambiguation selection `sel ∈ [1, K]` (lines 129-134): mark
the chosen candidate unavailable and return its df index. Invalid
selections re-prompt in the source; here they leave the pool unchanged. -/
def chooseSelection (rows : List Row) (cands : List Nat) (sel : Nat) :
    List Row × Option Nat :=
  if 1 ≤ sel ∧ sel ≤ cands.length then
    match cands.get? (sel - 1) with
    | some idx => (setAvail rows idx false, some idx)
    | none => (rows, none)
  else
    (rows, none)

/-- The removal action once the Matcher resolved to index `idx`
(lines 112-114 together with `history.append(idx)` in `main`): flip the
row to unavailable and push the index. The history is held most recent
first: `push` is cons, Python `list.pop()` is taking the head. -/
def removeResolved (rows : List Row) (hist : List Nat) (idx : Nat) :
    List Row × List Nat :=
  (setAvail rows idx false, idx :: hist)

/-- Stable descending insertion by key: equal keys keep pool order, which
is pandas `nlargest` with `keep='first'`. -/
def insertDesc (key : Row → Int) (r : Row) : List Row → List Row
  | [] => [r]
  | x :: xs => if key x < key r then r :: x :: xs else x :: insertDesc key r xs

/-- Stable descending sort by key. -/
def sortDesc (key : Row → Int) : List Row → List Row
  | [] => []
  | x :: xs => insertDesc key x (sortDesc key xs)

/-- Stable ascending insertion by key (pandas `nsmallest`). -/
def insertAsc (key : Row → Int) (r : Row) : List Row → List Row
  | [] => [r]
  | x :: xs => if key r < key x then r :: x :: xs else x :: insertAsc key r xs

/-- Stable ascending sort by key. -/
def sortAsc (key : Row → Int) : List Row → List Row
  | [] => []
  | x :: xs => insertAsc key x (sortAsc key xs)

/-- `DataFrame.nlargest(n, key)`. -/
def nlargestBy (key : Row → Int) (n : Nat) (l : List Row) : List Row :=
  (sortDesc key l).take n

/-- `DataFrame.nsmallest(n, key)`. -/
def nsmallestBy (key : Row → Int) (n : Nat) (l : List Row) : List Row :=
  (sortAsc key l).take n

/-- `show_top` (lines 72-89) as the list of rows it prints: filter to
available, optionally filter case-insensitively by position; with a
position use `nlargest` on the sort key, without one use `nsmallest` on
`Rank` when that column exists, else `nlargest` on the sort key. -/
def show_top (hasRank : Bool) (rows : List Row) (n : Nat)
    (pos : Option (List Nat)) : List Row :=
  let avail := rows.filter (fun r => r.available)
  match pos with
  | some p =>
    nlargestBy (fun r => r.player.pts) n
      (avail.filter (fun r => upperStr r.player.position == upperStr p))
  | none =>
    if hasRank then nsmallestBy (fun r => r.player.rank) n avail
    else nlargestBy (fun r => r.player.pts) n avail

/-- Dropping the helper columns from a row (lines 218-220). -/
def dropHelpers (r : Row) : Player :=
  r.player

/-- The rows written by `save` (lines 214-221): the available rows with
the helper columns removed. -/
def saveOutput (rows : List Row) : List Player :=
  (rows.filter (fun r => r.available)).map dropHelpers

/-- The `save` branch of the command loop as a state step: it writes
`saveOutput` to the external file and performs no assignment to the pool
or the history. -/
def stepSave (rows : List Row) (hist : List Nat) :
    (List Row × List Nat) × List Player :=
  ((rows, hist), saveOutput rows)

/-- The undo loop (lines 192-199): pop up to `count` entries off the
history; a popped index still present and unavailable is flipped back and
counted as restored. Returns (pool, history, restored). -/
def undoLoop : Nat → List Row → List Nat → List Row × List Nat × Nat
  | 0, rows, hist => (rows, hist, 0)
  | _ + 1, rows, [] => (rows, [], 0)
  | c + 1, rows, idx :: hist =>
    if decide (idx < rows.length) && !(availOf rows idx) then
      let r := undoLoop c (setAvail rows idx true) hist
      (r.1, r.2.1, r.2.2 + 1)
    else
      undoLoop c rows hist

/-- The whole undo command (lines 183-203) after argument parsing: the
Bool is whether "Nothing to undo." is printed, i.e. `restored == 0`. -/
def undoCmd (count : Nat) (rows : List Row) (hist : List Nat) :
    List Row × List Nat × Bool :=
  let r := undoLoop count rows hist
  (r.1, r.2.1, r.2.2 == 0)

/-- The two failure modes of `load_df`: the explicit
`ValueError('Could not find Adjusted or Projected points in the file.')`
(line 57), and the uncaught `KeyError` from `df['Full Name']` (line 66)
when the name column is absent. Both abort startup before the loop. -/
inductive LoadErr where
  | valueErrorNoPoints
  | keyErrorFullName
deriving DecidableEq

/-- `rename_map` (lines 31-42), as (source header, canonical header). -/
def rename_map : List (List Nat × List Nat) :=
  [(str "Full Name", str "Full Name"),
   (str "Position", str "Position"),
   (str "Team Abbrev", str "Team"),
   (str "Adjusted Projected Points", str "AdjPts"),
   (str "Projected Fantasy Points", str "ProjPts"),
   (str "ADP", str "ADP"),
   (str "Positional Rank", str "PosRank"),
   (str "Auction Value", str "Auc$"),
   (str "Rank", str "Rank"),
   (str "ADP Trend", str "ADP Trend")]

/-- `df.rename(columns=cols)` where `cols` is `rename_map` restricted to
the headers actually present (lines 44-48). -/
def renameCols (cols : List (List Nat)) : List (List Nat) :=
  cols.map (fun c =>
    match rename_map.find? (fun kv => kv.1 == c) with
    | some kv => kv.2
    | none => c)

/-- The `keep` list of line 51. -/
def keepCols : List (List Nat) :=
  [str "Full Name", str "Position", str "Team", str "AdjPts", str "ProjPts",
   str "ADP", str "PosRank", str "Auc$", str "Rank"]

/-- The column-level behaviour of `load_df` (lines 26-70): rename, keep,
pick the sort key (AdjPts, else ProjPts, else the explicit ValueError),
then access `df['Full Name']` to build the helper columns (KeyError when
absent). Returns the kept columns and the chosen sort key. The Position
column is never consulted during the load. -/
def load_df_cols (cols : List (List Nat)) :
    Except LoadErr (List (List Nat) × List Nat) :=
  let renamed := renameCols cols
  let kept := keepCols.filter (fun c => renamed.contains c)
  let sortKey? : Option (List Nat) :=
    if kept.contains (str "AdjPts") then some (str "AdjPts")
    else if kept.contains (str "ProjPts") then some (str "ProjPts")
    else none
  match sortKey? with
  | none => .error .valueErrorNoPoints
  | some sk =>
    if kept.contains (str "Full Name") then .ok (kept, sk)
    else .error .keyErrorFullName

/-! ### Concrete pools used as witnesses and counterexamples -/

/-- The loaded row for Patrick Mahomes. -/
def mahomesRow : Row :=
  mkRow { fullName := str "Patrick Mahomes", position := str "QB",
          team := str "KC", pts := 380, rank := 12 }

/-- A one-player pool holding only Patrick Mahomes. -/
def mahomesPool : List Row :=
  [mahomesRow]

/-- A pool with exactly two available players surnamed Jones. -/
def jonesPool : List Row :=
  [mkRow { fullName := str "Aaron Jones", position := str "RB",
           team := str "GB", pts := 250, rank := 20 },
   mkRow { fullName := str "Justin Jefferson", position := str "WR",
           team := str "MIN", pts := 300, rank := 2 },
   mkRow { fullName := str "Daniel Jones", position := str "QB",
           team := str "NYG", pts := 240, rank := 40 }]

/-- The surname token with an apostrophe (code point 39). -/
def obrienSurname : List Nat :=
  str "O" ++ 39 :: str "Brien"

/-- The loaded row for the apostrophe-surnamed player. -/
def obrienRow0 : Row :=
  mkRow { fullName := str "Bob " ++ obrienSurname, position := str "TE",
          team := str "BUF", pts := 100, rank := 90 }

/-- A pool holding an apostrophe-surnamed player and an apostrophe-free
player whose last name is the letters-only form of the first surname. -/
def obrienPool : List Row :=
  [obrienRow0,
   mkRow { fullName := str "Rob Obrien", position := str "TE",
           team := str "MIA", pts := 90, rank := 95 }]

/-- A pool holding only the apostrophe-surnamed player. -/
def obrienSolo : List Row :=
  [obrienRow0]

/-- The loaded row for the top running back of the witness pool. -/
def rbRowOne : Row :=
  mkRow { fullName := str "Back One", position := str "RB",
          team := str "AAA", pts := 260, rank := 3 }

/-- A pool with six available running backs (and one receiver), to witness
the row cap of `show_top`. -/
def rbPool : List Row :=
  [rbRowOne,
   mkRow { fullName := str "Back Two", position := str "rb",
           team := str "BBB", pts := 250, rank := 4 },
   mkRow { fullName := str "Wide One", position := str "WR",
           team := str "CCC", pts := 245, rank := 5 },
   mkRow { fullName := str "Back Three", position := str "RB",
           team := str "DDD", pts := 240, rank := 6 },
   mkRow { fullName := str "Back Four", position := str "RB",
           team := str "EEE", pts := 230, rank := 7 },
   mkRow { fullName := str "Back Five", position := str "RB",
           team := str "FFF", pts := 220, rank := 8 },
   mkRow { fullName := str "Back Six", position := str "RB",
           team := str "GGG", pts := 210, rank := 9 }]

/-! ### Character-level lemmas -/

theorem keepChar_toLowerChar {c : Nat} (h : keepChar c = true) :
    keepChar (toLowerChar c) = true := by
  simp only [keepChar, isAsciiAlpha, isAsciiUpper, isAsciiLower, isPySpace,
    toLowerChar, Bool.or_eq_true, decide_eq_true_eq, beq_iff_eq] at h ⊢
  split
  · omega
  · exact h

theorem toLowerChar_idem (c : Nat) :
    toLowerChar (toLowerChar c) = toLowerChar c := by
  by_cases h : 65 ≤ c ∧ c ≤ 90
  · simp only [toLowerChar, if_pos h]
    rw [if_neg (by omega)]
  · simp only [toLowerChar, if_neg h]

theorem isPySpace_toLowerChar (c : Nat) :
    isPySpace (toLowerChar c) = isPySpace c := by
  simp only [isPySpace, toLowerChar]
  split
  · next h => simp only [decide_eq_decide]; omega
  · rfl

theorem isPySpace_32 : isPySpace 32 = true := by decide

theorem keepChar_32 : keepChar 32 = true := by decide

theorem toLowerChar_32 : toLowerChar 32 = 32 := by decide

theorem isAsciiAlpha_toLowerChar {c : Nat} (h : isAsciiAlpha c = true) :
    isAsciiAlpha (toLowerChar c) = true := by
  simp only [isAsciiAlpha, isAsciiUpper, isAsciiLower, toLowerChar,
    Bool.or_eq_true, decide_eq_true_eq] at h ⊢
  split <;> omega

theorem isAsciiAlpha_ne_39 {c : Nat} (h : isAsciiAlpha c = true) : c ≠ 39 := by
  simp only [isAsciiAlpha, isAsciiUpper, isAsciiLower, Bool.or_eq_true,
    decide_eq_true_eq] at h
  omega

theorem isAsciiAlpha_not_space {c : Nat} (h : isAsciiAlpha c = true) :
    isPySpace c = false := by
  simp only [isAsciiAlpha, isAsciiUpper, isAsciiLower, Bool.or_eq_true,
    decide_eq_true_eq] at h
  simp only [isPySpace, decide_eq_false_iff_not]
  omega

/-! ### Small list lemmas -/

theorem set_self {α : Type _} (l : List α) (i : Nat) (a : α)
    (h : l.get? i = some a) : l.set i a = l := by
  induction l generalizing i with
  | nil => simp at h
  | cons x xs ih =>
    cases i with
    | zero => simp_all
    | succ j =>
      simp only [List.get?_cons_succ] at h
      simp [List.set_cons_succ, ih j h]

theorem dropWhile_eq_self_of_all {α : Type _} (p : α → Bool) (l : List α)
    (h : ∀ c ∈ l, p c = false) : l.dropWhile p = l := by
  cases l with
  | nil => rfl
  | cons x xs =>
    rw [List.dropWhile_cons]
    simp [h x (by simp)]

theorem pyStrip_eq_self_of_no_space {s : List Nat}
    (h : ∀ c ∈ s, isPySpace c = false) : pyStrip s = s := by
  unfold pyStrip
  rw [dropWhile_eq_self_of_all _ _ h,
    dropWhile_eq_self_of_all _ _ (fun c hc => h c (List.mem_reverse.mp hc)),
    List.reverse_reverse]

theorem mem_pyStrip {s : List Nat} {c : Nat} (h : c ∈ pyStrip s) : c ∈ s := by
  unfold pyStrip at h
  rw [List.mem_reverse] at h
  have h1 := (List.dropWhile_sublist _).mem h
  rw [List.mem_reverse] at h1
  exact (List.dropWhile_sublist _).mem h1

/-- Dropping a failing head leaves a nonempty list whose own `dropWhile`
is itself unchanged when prepended to anything. -/
theorem dropWhile_append_of_fixed {α : Type _} (p : α → Bool)
    {xs : List α} (ys : List α) (hne : xs ≠ [])
    (hfix : xs.dropWhile p = xs) : (xs ++ ys).dropWhile p = xs ++ ys := by
  cases xs with
  | nil => exact absurd rfl hne
  | cons a l =>
    rw [List.dropWhile_cons] at hfix
    by_cases hp : p a = true
    · rw [if_pos hp] at hfix
      have hl := congrArg List.length hfix
      have hlen : (l.dropWhile p).length ≤ l.length :=
        (List.dropWhile_sublist p).length_le
      simp at hl
      omega
    · rw [List.cons_append, List.dropWhile_cons,
        if_neg (by simp [Bool.not_eq_true] at hp ⊢; exact hp)]

/-! ### Substring test -/

theorem needleAtHead_nil (hay : List Nat) : needleAtHead [] hay = true := by
  cases hay <;> rfl

theorem containsSub_nil (hay : List Nat) : containsSub hay [] = true := by
  cases hay with
  | nil => rfl
  | cons h t => simp [containsSub, needleAtHead_nil]

/-! ### Index filtering -/

theorem mem_idxFilter {rows : List Row} {p : Row → Bool} {i : Nat} :
    i ∈ idxFilter rows p ↔ ∃ r, rows.get? i = some r ∧ p r = true := by
  unfold idxFilter
  rw [List.mem_filter, List.mem_range]
  constructor
  · rintro ⟨hi, hcond⟩
    cases hr : rows.get? i with
    | none => rw [hr] at hcond; simp at hcond
    | some r => rw [hr] at hcond; exact ⟨r, rfl, hcond⟩
  · rintro ⟨r, hr, hp⟩
    have hi : i < rows.length := by
      by_contra hge
      rw [List.get?_eq_none.mpr (by omega)] at hr
      exact Option.noConfusion hr
    exact ⟨hi, by rw [hr]; exact hp⟩

theorem idxFilter_congr {rows : List Row} {p q : Row → Bool}
    (h : ∀ r, p r = q r) : idxFilter rows p = idxFilter rows q := by
  unfold idxFilter
  apply List.filter_congr
  intro i _
  cases rows.get? i <;> simp [h]

/-! ### Availability updates -/

theorem length_setAvail (rows : List Row) (i : Nat) (b : Bool) :
    (setAvail rows i b).length = rows.length := by
  unfold setAvail
  cases rows.get? i <;> simp

theorem get?_setAvail_ne (rows : List Row) {i j : Nat} (b : Bool)
    (h : i ≠ j) : (setAvail rows i b).get? j = rows.get? j := by
  unfold setAvail
  cases rows.get? i with
  | none => rfl
  | some r => exact List.get?_set_ne _ _ h

theorem get?_setAvail_self {rows : List Row} {i : Nat} {r : Row} (b : Bool)
    (h : rows.get? i = some r) :
    (setAvail rows i b).get? i = some { r with available := b } := by
  unfold setAvail
  rw [h]
  have hi : i < rows.length := by
    by_contra hge
    rw [List.get?_eq_none.mpr (by omega)] at h
    exact Option.noConfusion h
  rw [List.get?_set_eq, h]
  simp [hi]

theorem availOf_setAvail_self {rows : List Row} {i : Nat} {r : Row}
    (b : Bool) (h : rows.get? i = some r) :
    availOf (setAvail rows i b) i = b := by
  unfold availOf
  rw [get?_setAvail_self b h]

theorem availOf_setAvail_ne (rows : List Row) {i j : Nat} (b : Bool)
    (h : i ≠ j) : availOf (setAvail rows i b) j = availOf rows j := by
  unfold availOf
  rw [get?_setAvail_ne rows b h]

/-! ### Tokenization lemmas -/

/-- Every token produced by the splitter is nonempty, contains no
whitespace, and draws its characters from the input (or the accumulator). -/
theorem splitWsAux_tokens (s : List Nat) :
    ∀ acc, (∀ c ∈ acc, isPySpace c = false) →
      ∀ t ∈ splitWsAux s acc,
        t ≠ [] ∧ ∀ c ∈ t, isPySpace c = false ∧ (c ∈ s ∨ c ∈ acc) := by
  induction s with
  | nil =>
    intro acc hacc t ht
    rw [splitWsAux] at ht
    by_cases he : acc.isEmpty
    · rw [if_pos he] at ht
      simp at ht
    · rw [if_neg he] at ht
      rcases List.mem_singleton.mp ht with rfl
      refine ⟨by simpa [List.isEmpty_iff] using he, fun c hc => ?_⟩
      rw [List.mem_reverse] at hc
      exact ⟨hacc c hc, Or.inr hc⟩
  | cons x xs ih =>
    intro acc hacc t ht
    rw [splitWsAux] at ht
    by_cases hx : isPySpace x = true
    · rw [if_pos hx] at ht
      by_cases he : acc.isEmpty
      · rw [if_pos he] at ht
        have := ih [] (by simp) t ht
        exact ⟨this.1, fun c hc => ⟨(this.2 c hc).1, by
          rcases (this.2 c hc).2 with h | h
          · exact Or.inl (List.mem_cons_of_mem x h)
          · simp at h⟩⟩
      · rw [if_neg he] at ht
        rcases List.mem_cons.mp ht with rfl | ht'
        · refine ⟨by simpa [List.isEmpty_iff] using he, fun c hc => ?_⟩
          rw [List.mem_reverse] at hc
          exact ⟨hacc c hc, Or.inr hc⟩
        · have := ih [] (by simp) t ht'
          exact ⟨this.1, fun c hc => ⟨(this.2 c hc).1, by
            rcases (this.2 c hc).2 with h | h
            · exact Or.inl (List.mem_cons_of_mem x h)
            · simp at h⟩⟩
    · rw [if_neg hx] at ht
      rw [Bool.not_eq_true] at hx
      have := ih (x :: acc) (by
        intro c hc
        rcases List.mem_cons.mp hc with rfl | hc'
        · exact hx
        · exact hacc c hc') t ht
      refine ⟨this.1, fun c hc => ⟨(this.2 c hc).1, ?_⟩⟩
      rcases (this.2 c hc).2 with h | h
      · exact Or.inl (List.mem_cons_of_mem x h)
      · rcases List.mem_cons.mp h with rfl | hc'
        · exact Or.inl (List.mem_cons_self c xs)
        · exact Or.inr hc'

theorem splitWs_tokens {s : List Nat} :
    ∀ t ∈ splitWs s, t ≠ [] ∧ ∀ c ∈ t, isPySpace c = false ∧ c ∈ s := by
  intro t ht
  have := splitWsAux_tokens s [] (by simp) t ht
  exact ⟨this.1, fun c hc => ⟨(this.2 c hc).1, by
    rcases (this.2 c hc).2 with h | h
    · exact h
    · simp at h⟩⟩

/-- A run of non-whitespace characters passes straight into the
accumulator. -/
theorem splitWsAux_append (t : List Nat) (hns : ∀ c ∈ t, isPySpace c = false) :
    ∀ rest acc, splitWsAux (t ++ rest) acc = splitWsAux rest (t.reverse ++ acc) := by
  induction t with
  | nil => intro rest acc; simp
  | cons c t' ih =>
    intro rest acc
    have hc : isPySpace c = false := hns c (List.mem_cons_self c t')
    rw [List.cons_append, splitWsAux, if_neg (by simp [hc])]
    rw [ih (fun d hd => hns d (List.mem_cons_of_mem c hd)) rest (c :: acc)]
    simp

/-- `joinSpace` on a cons, uniformly over the tail. -/
theorem joinSpace_cons (t : List Nat) (ts : List (List Nat)) :
    joinSpace (t :: ts) = t ++ (if ts.isEmpty then [] else 32 :: joinSpace ts) := by
  cases ts with
  | nil => simp [joinSpace]
  | cons t' ts' => rfl

theorem joinSpace_ne_nil {t : List Nat} (ts : List (List Nat)) (h : t ≠ []) :
    joinSpace (t :: ts) ≠ [] := by
  rw [joinSpace_cons]
  intro hcontra
  rcases List.append_eq_nil.mp hcontra with ⟨h1, _⟩
  exact h h1

/-- Splitting the space-joined list of nonempty whitespace-free tokens
recovers exactly those tokens. -/
theorem splitWs_joinSpace (ts : List (List Nat))
    (h : ∀ t ∈ ts, t ≠ [] ∧ ∀ c ∈ t, isPySpace c = false) :
    splitWs (joinSpace ts) = ts := by
  induction ts with
  | nil => rfl
  | cons t ts' ih =>
    have ht := h t (List.mem_cons_self t ts')
    cases ts' with
    | nil =>
      show splitWsAux (joinSpace [t]) [] = [t]
      have : joinSpace [t] = t ++ [] := by simp [joinSpace]
      rw [this, splitWsAux_append t ht.2 [] [], splitWsAux]
      simp [List.isEmpty_iff, ht.1]
    | cons t'' ts'' =>
      show splitWsAux (joinSpace (t :: t'' :: ts'')) [] = t :: t'' :: ts''
      rw [show joinSpace (t :: t'' :: ts'') = t ++ 32 :: joinSpace (t'' :: ts'') from rfl]
      rw [splitWsAux_append t ht.2 _ [], splitWsAux, if_pos isPySpace_32]
      rw [if_neg (by simp [List.isEmpty_iff, ht.1])]
      have hrest := ih (fun u hu => h u (List.mem_cons_of_mem t hu))
      rw [show splitWsAux (joinSpace (t'' :: ts'')) [] = splitWs (joinSpace (t'' :: ts'')) from rfl,
        hrest]
      simp

/-- Characters of a joined token list are spaces or token characters. -/
theorem mem_joinSpace {ts : List (List Nat)} {c : Nat}
    (h : c ∈ joinSpace ts) : c = 32 ∨ ∃ t ∈ ts, c ∈ t := by
  induction ts with
  | nil => simp [joinSpace] at h
  | cons t ts' ih =>
    rw [joinSpace_cons] at h
    rcases List.mem_append.mp h with h1 | h1
    · exact Or.inr ⟨t, List.mem_cons_self t ts', h1⟩
    · by_cases he : ts'.isEmpty
      · rw [if_pos he] at h1; simp at h1
      · rw [if_neg he] at h1
        rcases List.mem_cons.mp h1 with rfl | h2
        · exact Or.inl rfl
        · rcases ih h2 with h3 | ⟨u, hu, hc⟩
          · exact Or.inl h3
          · exact Or.inr ⟨u, List.mem_cons_of_mem t hu, hc⟩

/-- The reversed join of nonempty whitespace-free tokens starts with a
non-whitespace character (stated as a `dropWhile` fixpoint). -/
theorem joinSpace_reverse_fixed :
    ∀ ts : List (List Nat),
      (∀ t ∈ ts, t ≠ [] ∧ ∀ c ∈ t, isPySpace c = false) →
      (joinSpace ts).reverse.dropWhile isPySpace = (joinSpace ts).reverse := by
  intro ts
  induction ts with
  | nil => intro _; rfl
  | cons t ts' ih =>
    intro h
    have ht := h t (List.mem_cons_self t ts')
    cases ts' with
    | nil =>
      simp only [joinSpace]
      apply dropWhile_eq_self_of_all
      intro c hc
      exact ht.2 c (List.mem_reverse.mp hc)
    | cons t'' ts'' =>
      rw [show joinSpace (t :: t'' :: ts'') = t ++ 32 :: joinSpace (t'' :: ts'') from rfl,
        List.reverse_append, List.reverse_cons]
      have ht'' := h t'' (List.mem_cons_of_mem t (List.mem_cons_self t'' ts''))
      have hjoin_ne : joinSpace (t'' :: ts'') ≠ [] := joinSpace_ne_nil ts'' ht''.1
      have hrev_ne : (joinSpace (t'' :: ts'')).reverse ≠ [] := by
        simpa using hjoin_ne
      have hrevfix : (joinSpace (t'' :: ts'')).reverse.dropWhile isPySpace
          = (joinSpace (t'' :: ts'')).reverse :=
        ih (fun u hu => h u (List.mem_cons_of_mem t hu))
      rw [List.append_assoc]
      exact dropWhile_append_of_fixed isPySpace _ hrev_ne hrevfix

/-- Stripping whitespace from a joined list of nonempty whitespace-free
tokens changes nothing. -/
theorem pyStrip_joinSpace (ts : List (List Nat))
    (h : ∀ t ∈ ts, t ≠ [] ∧ ∀ c ∈ t, isPySpace c = false) :
    pyStrip (joinSpace ts) = joinSpace ts := by
  cases ts with
  | nil => rfl
  | cons t ts' =>
    have ht := h t (List.mem_cons_self t ts')
    unfold pyStrip
    have hfront : (joinSpace (t :: ts')).dropWhile isPySpace = joinSpace (t :: ts') := by
      rw [joinSpace_cons]
      exact dropWhile_append_of_fixed isPySpace _ ht.1
        (dropWhile_eq_self_of_all _ _ ht.2)
    rw [hfront, joinSpace_reverse_fixed (t :: ts') h, List.reverse_reverse]

theorem map_eq_self_of_fixed {α : Type _} (f : α → α) :
    ∀ l : List α, (∀ a ∈ l, f a = a) → l.map f = l := by
  intro l
  induction l with
  | nil => intro _; rfl
  | cons x xs ih =>
    intro h
    rw [List.map_cons, h x (List.mem_cons_self x xs),
      ih (fun a ha => h a (List.mem_cons_of_mem x ha))]

/-! ### Structure of normalized names -/

/-- Every token of a normalized name is nonempty, whitespace-free, made of
kept characters that are fixed points of lowering, and is not a suffix
token. -/
theorem normTokens_good (s : List Nat) :
    ∀ t ∈ normTokens s,
      (t ≠ [] ∧ ∀ c ∈ t, isPySpace c = false ∧ keepChar c = true ∧ toLowerChar c = c)
      ∧ suffixTokens.contains t = false := by
  intro t ht
  unfold normTokens at ht
  rcases List.mem_filter.mp ht with ⟨hsplit, hsuf⟩
  have htok := splitWs_tokens t hsplit
  refine ⟨⟨htok.1, fun c hc => ?_⟩, by simpa using hsuf⟩
  have hc' := htok.2 c hc
  rcases List.mem_map.mp hc'.2 with ⟨c0, hc0, rfl⟩
  have hkeep0 : keepChar c0 = true :=
    (List.mem_filter.mp (mem_pyStrip hc0)).2
  exact ⟨hc'.1, keepChar_toLowerChar hkeep0, toLowerChar_idem c0⟩

/-- The normalized name is the space-join of its token list. -/
theorem normalize_name_eq_join (s : List Nat) :
    normalize_name s = joinSpace (normTokens s) := rfl

/-- Splitting a normalized name recovers its token list. -/
theorem splitWs_normalize (s : List Nat) :
    splitWs (normalize_name s) = normTokens s := by
  rw [normalize_name_eq_join]
  exact splitWs_joinSpace (normTokens s)
    (fun t ht => ⟨(normTokens_good s t ht).1.1,
      fun c hc => ((normTokens_good s t ht).1.2 c hc).1⟩)

/-- Every character of a normalized name is a space or a whitespace-free
kept character fixed by lowering. -/
theorem normalize_name_chars {s : List Nat} {c : Nat}
    (h : c ∈ normalize_name s) :
    c = 32 ∨ (isPySpace c = false ∧ keepChar c = true ∧ toLowerChar c = c) := by
  rw [normalize_name_eq_join] at h
  rcases mem_joinSpace h with h32 | ⟨t, ht, hc⟩
  · exact Or.inl h32
  · exact Or.inr ((normTokens_good s t ht).1.2 c hc)

/-- Characters of a last-name token: whitespace-free kept characters
fixed by lowering (so in particular no space character at all). -/
theorem last_name_chars (s : List Nat) :
    ∀ c ∈ last_name s,
      isPySpace c = false ∧ keepChar c = true ∧ toLowerChar c = c := by
  intro c hc
  unfold last_name at hc
  rw [splitWs_normalize] at hc
  cases hl : (normTokens s).getLast? with
  | some t =>
    rw [hl] at hc
    exact (normTokens_good s t (List.mem_of_getLast?_eq_some hl)).1.2 c hc
  | none =>
    rw [hl] at hc
    have hnil : normTokens s = [] := List.getLast?_eq_none_iff.mp hl
    rw [normalize_name_eq_join, hnil] at hc
    simp [joinSpace] at hc

/-! ### Undo lemmas -/

theorem undoLoop_nil (c : Nat) (rows : List Row) :
    undoLoop c rows [] = (rows, [], 0) := by
  cases c <;> rfl

theorem undoLoop_hist (c : Nat) :
    ∀ (rows : List Row) (hist : List Nat),
      (undoLoop c rows hist).2.1 = hist.drop (min c hist.length) := by
  induction c with
  | zero => intro rows hist; simp [undoLoop]
  | succ c ih =>
    intro rows hist
    cases hist with
    | nil => simp [undoLoop]
    | cons idx h' =>
      rw [undoLoop]
      by_cases hcond : (decide (idx < rows.length) && !(availOf rows idx)) = true
      · rw [if_pos hcond]
        simp only [ih]
        simp [Nat.succ_min_succ]
      · rw [if_neg hcond, ih]
        simp [Nat.succ_min_succ]

theorem availOf_setAvail_true_mono {rows : List Row} {i : Nat} (j : Nat)
    (h : availOf rows i = true) : availOf (setAvail rows j true) i = true := by
  by_cases hij : j = i
  · subst hij
    cases hj : rows.get? j with
    | none => unfold setAvail; rw [hj]; exact h
    | some r => rw [availOf_setAvail_self true hj]
  · rw [availOf_setAvail_ne rows true hij]
    exact h

theorem undoLoop_avail_mono (c : Nat) :
    ∀ (rows : List Row) (hist : List Nat) (i : Nat),
      availOf rows i = true → availOf (undoLoop c rows hist).1 i = true := by
  induction c with
  | zero => intro rows hist i h; exact h
  | succ c ih =>
    intro rows hist i h
    cases hist with
    | nil => rw [undoLoop_nil]; exact h
    | cons idx h' =>
      rw [undoLoop]
      by_cases hcond : (decide (idx < rows.length) && !(availOf rows idx)) = true
      · rw [if_pos hcond]
        exact ih (setAvail rows idx true) h' i (availOf_setAvail_true_mono idx h)
      · rw [if_neg hcond]
        exact ih rows h' i h

theorem undoLoop_restored_zero (c : Nat) :
    ∀ (rows : List Row) (hist : List Nat),
      (undoLoop c rows hist).2.2 = 0 → (undoLoop c rows hist).1 = rows := by
  induction c with
  | zero => intro rows hist _; rfl
  | succ c ih =>
    intro rows hist h
    cases hist with
    | nil => rw [undoLoop_nil]
    | cons idx h' =>
      rw [undoLoop] at h ⊢
      by_cases hcond : (decide (idx < rows.length) && !(availOf rows idx)) = true
      · rw [if_pos hcond] at h
        simp at h
      · rw [if_neg hcond] at h ⊢
        exact ih rows h' h

theorem undoLoop_restored_pos (c : Nat) :
    ∀ (rows : List Row) (hist : List Nat),
      0 < (undoLoop c rows hist).2.2 →
      ∃ i, availOf rows i = false ∧ availOf (undoLoop c rows hist).1 i = true := by
  induction c with
  | zero => intro rows hist h; simp [undoLoop] at h
  | succ c ih =>
    intro rows hist h
    cases hist with
    | nil => rw [undoLoop_nil] at h; simp at h
    | cons idx h' =>
      by_cases hcond : (decide (idx < rows.length) && !(availOf rows idx)) = true
      · rw [undoLoop, if_pos hcond]
        have hcond' := hcond
        simp only [Bool.and_eq_true] at hcond'
        obtain ⟨hlt, hav⟩ := hcond'
        have hlt' : idx < rows.length := of_decide_eq_true hlt
        have hav' : availOf rows idx = false := by
          rwa [Bool.not_eq_eq_eq_not, Bool.not_true] at hav
        refine ⟨idx, hav', ?_⟩
        cases hj : rows.get? idx with
        | none =>
          have : rows.length ≤ idx := List.get?_eq_none.mp hj
          omega
        | some r =>
          exact undoLoop_avail_mono c (setAvail rows idx true) h' idx
            (availOf_setAvail_self true hj)
      · rw [undoLoop, if_neg hcond] at h ⊢
        exact ih rows h' h

/-! ### Sorting lemmas -/

theorem mem_insertDesc {key : Row → Int} {a r : Row} :
    ∀ l : List Row, a ∈ insertDesc key r l ↔ a = r ∨ a ∈ l := by
  intro l
  induction l with
  | nil => simp [insertDesc]
  | cons x xs ih =>
    rw [insertDesc]
    by_cases h : key x < key r
    · rw [if_pos h]; simp
    · rw [if_neg h]
      simp only [List.mem_cons, ih]
      tauto

theorem mem_sortDesc {key : Row → Int} {a : Row} :
    ∀ l : List Row, a ∈ sortDesc key l ↔ a ∈ l := by
  intro l
  induction l with
  | nil => simp [sortDesc]
  | cons x xs ih =>
    rw [sortDesc, mem_insertDesc]
    simp [ih]

theorem setAvail_eq_some {rows : List Row} {i : Nat} {r : Row} (b : Bool)
    (h : rows.get? i = some r) :
    setAvail rows i b = rows.set i { r with available := b } := by
  unfold setAvail
  rw [h]

theorem setAvail_setAvail (rows : List Row) (i : Nat) (b1 b2 : Bool) :
    setAvail (setAvail rows i b1) i b2 = setAvail rows i b2 := by
  cases hg : rows.get? i with
  | none =>
    have h0 : setAvail rows i b1 = rows := by unfold setAvail; rw [hg]
    rw [h0]
  | some r =>
    have h2 : (setAvail rows i b1).get? i = some { r with available := b1 } :=
      get?_setAvail_self b1 hg
    rw [setAvail_eq_some b2 h2, setAvail_eq_some b1 hg, List.set_set,
      setAvail_eq_some b2 hg]

theorem setAvail_id {rows : List Row} {i : Nat} {r : Row} (b : Bool)
    (hr : rows.get? i = some r) (hb : r.available = b) :
    setAvail rows i b = rows := by
  have hrec : ({ r with available := b } : Row) = r := by
    cases r with
    | mk p nn ln av => cases hb; rfl
  rw [setAvail_eq_some b hr, hrec]
  exact set_self rows i r hr

/-! ### Claim theorems -/

/-- C8: the name normalizer is idempotent — for every input string `x`
(as code points), `normalize(normalize(x)) = normalize(x)`. -/
theorem normalize_name_idempotent (s : List Nat) :
    normalize_name (normalize_name s) = normalize_name s := by
  have good := normTokens_good s
  have hA : (normalize_name s).filter keepChar = normalize_name s := by
    rw [List.filter_eq_self]
    intro c hc
    rcases normalize_name_chars hc with rfl | ⟨_, hk, _⟩
    · exact keepChar_32
    · exact hk
  have hB : pyStrip (normalize_name s) = normalize_name s := by
    rw [normalize_name_eq_join]
    refine pyStrip_joinSpace _ (fun t ht => ⟨(good t ht).1.1, fun c hc => ?_⟩)
    · exact ((good t ht).1.2 c hc).1
  have hC : (normalize_name s).map toLowerChar = normalize_name s := by
    apply map_eq_self_of_fixed
    intro c hc
    rcases normalize_name_chars hc with rfl | ⟨_, _, hf⟩
    · exact toLowerChar_32
    · exact hf
  have hD : splitWs (normalize_name s) = normTokens s := splitWs_normalize s
  have hE : (normTokens s).filter (fun t => !(suffixTokens.contains t))
      = normTokens s := by
    rw [List.filter_eq_self]
    intro t ht
    simpa using (good t ht).2
  show joinSpace
      ((splitWs ((pyStrip ((normalize_name s).filter keepChar)).map toLowerChar)).filter
        (fun t => !(suffixTokens.contains t)))
    = normalize_name s
  rw [hA, hB, hC, hD, hE, ← normalize_name_eq_join]

/-- C1 counterexample: a popped entry whose player is already available
(a no-op pop, the case line 195 tolerates) still produces the
"Nothing to undo." message, and the history was nonempty at the start —
so the message is not equivalent to "the stack held zero entries", and it
does appear when every popped entry is a no-op. -/
theorem undoCmd_noop_pop_counterexample :
    availOf mahomesPool 0 = true
    ∧ undoCmd 1 mahomesPool [0] = (mahomesPool, [], true)
    ∧ ((0 : Nat) :: [] : List Nat) ≠ [] := by
  refine ⟨by decide, by decide, by simp⟩

/-- C1 (amended): the undo command prints "Nothing to undo." iff the
restored count is zero, which happens exactly when no popped entry
changed any availability (in particular on an empty stack, but also when
every popped entry is a no-op); popped entries always leave the stack
(`min count |hist|` of them); and undo on an empty history changes no
player's availability and prints the message. -/
theorem undoCmd_message_characterization (count : Nat) (rows : List Row)
    (hist : List Nat) :
    ((undoCmd count rows hist).2.2 = true ↔ (undoCmd count rows hist).1 = rows)
    ∧ (undoCmd count rows hist).2.1 = hist.drop (min count hist.length)
    ∧ (hist = [] → undoCmd count rows hist = (rows, [], true)) := by
  refine ⟨⟨?_, ?_⟩, ?_, ?_⟩
  · intro h
    unfold undoCmd at h ⊢
    simp only [beq_iff_eq] at h
    exact undoLoop_restored_zero count rows hist h
  · intro h
    unfold undoCmd at h ⊢
    simp only [beq_iff_eq]
    by_contra hne
    rcases undoLoop_restored_pos count rows hist (Nat.pos_of_ne_zero hne)
      with ⟨i, hf, ht⟩
    rw [h, hf] at ht
    simp at ht
  · unfold undoCmd
    exact undoLoop_hist count rows hist
  · intro h
    subst h
    simp [undoCmd, undoLoop_nil]

/-- C1 witness: the amended theorem at a concrete input — undo on an
empty history leaves the concrete pool unchanged and prints the
message. -/
theorem undoCmd_message_characterization_witness :
    undoCmd 3 mahomesPool [] = (mahomesPool, [], true) :=
  (undoCmd_message_characterization 3 mahomesPool []).2.2 rfl

/-- C4: removing an available player (mark unavailable + push) and then
undoing once restores the exact prior pool and history, reports it as a
restoration (no "Nothing to undo."), and every subsequent `show_top`
view is identical to what it was before the removal. -/
theorem remove_undo_roundtrip (rows : List Row) (hist : List Nat) (idx : Nat)
    (h : availOf rows idx = true) :
    undoCmd 1 (removeResolved rows hist idx).1 (removeResolved rows hist idx).2
      = (rows, hist, false)
    ∧ ∀ (hasRank : Bool) (n : Nat) (pos : Option (List Nat)),
        show_top hasRank
            (undoCmd 1 (removeResolved rows hist idx).1
              (removeResolved rows hist idx).2).1 n pos
          = show_top hasRank rows n pos := by
  obtain ⟨r, hr, hra⟩ : ∃ r, rows.get? idx = some r ∧ r.available = true := by
    unfold availOf at h
    cases hg : rows.get? idx with
    | none => rw [hg] at h; exact absurd h (by simp)
    | some r => rw [hg] at h; exact ⟨r, rfl, h⟩
  have hlt : idx < rows.length := by
    by_contra hge
    rw [List.get?_eq_none.mpr (by omega)] at hr
    exact Option.noConfusion hr
  have hlen : (setAvail rows idx false).length = rows.length :=
    length_setAvail rows idx false
  have hav1 : availOf (setAvail rows idx false) idx = false :=
    availOf_setAvail_self false hr
  have hcond : (decide (idx < (setAvail rows idx false).length)
      && !(availOf (setAvail rows idx false) idx)) = true := by
    rw [hav1, hlen]
    simp [hlt]
  have hrestore : setAvail (setAvail rows idx false) idx true = rows := by
    rw [setAvail_setAvail]
    exact setAvail_id true hr hra
  have hloop : undoLoop 1 (setAvail rows idx false) (idx :: hist)
      = (setAvail (setAvail rows idx false) idx true, hist, 1) := by
    rw [undoLoop, if_pos hcond]
    rfl
  have hcmd : undoCmd 1 (setAvail rows idx false) (idx :: hist)
      = (rows, hist, false) := by
    unfold undoCmd
    rw [hloop, hrestore]
    rfl
  refine ⟨hcmd, fun hasRank n pos => ?_⟩
  have hfst : (undoCmd 1 (removeResolved rows hist idx).1
      (removeResolved rows hist idx).2).1 = rows := by
    have heq : undoCmd 1 (removeResolved rows hist idx).1
        (removeResolved rows hist idx).2 = (rows, hist, false) := hcmd
    rw [heq]
  rw [hfst]

/-- C4 witness: the round trip at a concrete pool and player. -/
theorem remove_undo_roundtrip_witness :
    undoCmd 1 (removeResolved mahomesPool [] 0).1 (removeResolved mahomesPool [] 0).2
      = (mahomesPool, [], false) :=
  (remove_undo_roundtrip mahomesPool [] 0 (by decide)).1

theorem contains_true_iff {α : Type _} [BEq α] [LawfulBEq α] {l : List α}
    {a : α} : l.contains a = true ↔ a ∈ l :=
  List.elem_iff

theorem stripLetters_chars (q : List Nat) :
    ∀ c ∈ stripLetters q, isAsciiAlpha c = true := by
  intro c hc
  unfold stripLetters at hc
  rcases List.mem_map.mp hc with ⟨c0, hc0, rfl⟩
  exact isAsciiAlpha_toLowerChar (List.mem_filter.mp hc0).2

theorem resolveCandidates_no_space (rows : List Row) (query : List Nat)
    (h : (pyStrip query).contains 32 = false) :
    resolveCandidates rows query = tier2 rows (pyStrip query) := by
  simp only [resolveCandidates]
  rw [h]
  simp

theorem resolveCandidates_space (rows : List Row) (query : List Nat)
    (h : ((pyStrip query).contains 32 && (pyStrip query).any isAsciiAlpha) = true) :
    resolveCandidates rows query
      = (if (tier1 rows (pyStrip query)).isEmpty then tier2 rows (pyStrip query)
         else tier1 rows (pyStrip query)) := by
  simp only [resolveCandidates]
  rw [h]
  simp

/-- C6: a position-filtered top-5 view never shows an unavailable player,
never shows a player whose upper-cased position differs from "RB", and
never exceeds 5 rows, whatever the pool state. -/
theorem show_top_rb_bound (hasRank : Bool) (rows : List Row) :
    (show_top hasRank rows 5 (some (str "RB"))).length ≤ 5
    ∧ ∀ r ∈ show_top hasRank rows 5 (some (str "RB")),
        r.available = true ∧ upperStr r.player.position = str "RB" := by
  have hbody : show_top hasRank rows 5 (some (str "RB"))
      = nlargestBy (fun r => r.player.pts) 5
          ((rows.filter (fun r => r.available)).filter
            (fun r => upperStr r.player.position == upperStr (str "RB"))) := rfl
  constructor
  · rw [hbody]
    unfold nlargestBy
    rw [List.length_take]
    exact min_le_left 5 _
  · intro r hr
    rw [hbody] at hr
    unfold nlargestBy at hr
    have hr1 := List.mem_of_mem_take hr
    rw [mem_sortDesc] at hr1
    rcases List.mem_filter.mp hr1 with ⟨hr2, hpos⟩
    rcases List.mem_filter.mp hr2 with ⟨_, hav⟩
    refine ⟨hav, ?_⟩
    have hpos' : upperStr r.player.position = upperStr (str "RB") := by
      exact eq_of_beq hpos
    rw [hpos']
    decide

/-- C6 witness: in a pool where six running backs qualify, exactly 5 rows
come back and the first returned row is an available RB. -/
theorem show_top_rb_bound_witness :
    (show_top true rbPool 5 (some (str "RB"))).length ≤ 5
    ∧ (rbRowOne.available = true ∧ upperStr rbRowOne.player.position = str "RB")
    ∧ 6 ≤ ((rbPool.filter (fun r => r.available)).filter
        (fun r => upperStr r.player.position == upperStr (str "RB"))).length :=
  ⟨(show_top_rb_bound true rbPool).1,
   (show_top_rb_bound true rbPool).2 rbRowOne (by decide),
   by decide⟩

/-- C7: the save command leaves the pool and history exactly as they
were, and its output rows are precisely the available rows, stripped of
the derived helper fields (the output row type has no `__name_norm`,
`__lname` or `__available`). -/
theorem save_frame_and_output (rows : List Row) (hist : List Nat) :
    (stepSave rows hist).1 = (rows, hist)
    ∧ ∀ p, p ∈ (stepSave rows hist).2
        ↔ ∃ r, r ∈ rows ∧ r.available = true ∧ p = r.player := by
  refine ⟨rfl, fun p => ?_⟩
  show p ∈ saveOutput rows ↔ _
  unfold saveOutput dropHelpers
  constructor
  · intro hp
    rcases List.mem_map.mp hp with ⟨r, hr, rfl⟩
    rcases List.mem_filter.mp hr with ⟨hmem, hav⟩
    exact ⟨r, hmem, hav, rfl⟩
  · rintro ⟨r, hmem, hav, rfl⟩
    exact List.mem_map.mpr ⟨r, List.mem_filter.mpr ⟨hmem, hav⟩, rfl⟩

/-- C7 witness: saving a concrete pool keeps the state and emits the
available player's non-derived columns. -/
theorem save_frame_and_output_witness :
    (stepSave mahomesPool [0]).1 = (mahomesPool, [0])
    ∧ mahomesRow.player ∈ (stepSave mahomesPool [0]).2 :=
  ⟨(save_frame_and_output mahomesPool [0]).1,
   ((save_frame_and_output mahomesPool [0]).2 mahomesRow.player).mpr
     ⟨mahomesRow, by decide, by decide, rfl⟩⟩

/-- C2 counterexample: with Patrick Mahomes available, his normalized
name containing "mahom", and nobody else in the pool, the query "mahom"
resolves to no match — not to `Unique` — because the substring tier
requires a space in the query and the last-name tier needs exact equality
with "mahomes". -/
theorem mahom_query_counterexample :
    availOf mahomesPool 0 = true
    ∧ containsSub mahomesRow.name_norm (str "mahom") = true
    ∧ mahomesPool.length = 1
    ∧ resolve mahomesPool (str "mahom") = .noMatch := by
  refine ⟨by decide, by decide, by decide, by decide⟩

/-- C2 (amended): the space-free fragment "mahom" yields no match
whenever no available player's last-name token is exactly "mahom", while
the full surname "mahomes" resolves uniquely to the single available
player whose last-name token is "mahomes". -/
theorem mahomes_resolution (rows : List Row) (i : Nat)
    (h1 : idxFilter rows
        (fun r => r.available && (r.lname == str "mahomes")) = [i])
    (h2 : idxFilter rows
        (fun r => r.available && (r.lname == str "mahom")) = []) :
    resolve rows (str "mahomes") = .unique i
    ∧ resolve rows (str "mahom") = .noMatch := by
  constructor
  · have hcand : resolveCandidates rows (str "mahomes") = [i] := by
      rw [resolveCandidates_no_space rows _ (by decide),
        show pyStrip (str "mahomes") = str "mahomes" from by decide]
      unfold tier2
      rw [show stripLetters (str "mahomes") = str "mahomes" from by decide]
      exact h1
    unfold resolve
    rw [hcand]
  · have hcand : resolveCandidates rows (str "mahom") = [] := by
      rw [resolveCandidates_no_space rows _ (by decide),
        show pyStrip (str "mahom") = str "mahom" from by decide]
      unfold tier2
      rw [show stripLetters (str "mahom") = str "mahom" from by decide]
      exact h2
    unfold resolve
    rw [hcand]

/-- C2 witness: the amended theorem at the concrete one-player pool. -/
theorem mahomes_resolution_witness :
    resolve mahomesPool (str "mahomes") = .unique 0
    ∧ resolve mahomesPool (str "mahom") = .noMatch :=
  mahomes_resolution mahomesPool 0 (by decide) (by decide)

/-- C5: when exactly two available players carry the last-name token
"jones", the query "jones" resolves to `Ambiguous` with those two
candidates in pool order, and answering the disambiguation prompt with 2
marks exactly the second-listed candidate unavailable, touching no other
row. -/
theorem jones_ambiguous_selection (rows : List Row) (a b : Nat)
    (h : idxFilter rows
        (fun r => r.available && (r.lname == str "jones")) = [a, b]) :
    resolve rows (str "jones") = .ambiguous [a, b]
    ∧ (chooseSelection rows [a, b] 2).2 = some b
    ∧ availOf (chooseSelection rows [a, b] 2).1 b = false
    ∧ ∀ j, j ≠ b → (chooseSelection rows [a, b] 2).1.get? j = rows.get? j := by
  have hb : b ∈ idxFilter rows (fun r => r.available && (r.lname == str "jones")) := by
    rw [h]
    simp
  rcases mem_idxFilter.mp hb with ⟨rb, hrb, _⟩
  have hsel : chooseSelection rows [a, b] 2 = (setAvail rows b false, some b) := by
    unfold chooseSelection
    rw [if_pos (by constructor <;> simp)]
    rfl
  refine ⟨?_, ?_, ?_, ?_⟩
  · have hcand : resolveCandidates rows (str "jones") = [a, b] := by
      rw [resolveCandidates_no_space rows _ (by decide),
        show pyStrip (str "jones") = str "jones" from by decide]
      unfold tier2
      rw [show stripLetters (str "jones") = str "jones" from by decide]
      exact h
    unfold resolve
    rw [hcand]
  · rw [hsel]
  · rw [hsel]
    exact availOf_setAvail_self false hrb
  · intro j hj
    rw [hsel]
    exact get?_setAvail_ne rows false (Ne.symm hj)

/-- C5 witness: the concrete two-Jones pool; selection 2 removes the
second-listed Jones and leaves the first Jones' row untouched. -/
theorem jones_ambiguous_selection_witness :
    resolve jonesPool (str "jones") = .ambiguous [0, 2]
    ∧ (chooseSelection jonesPool [0, 2] 2).2 = some 2
    ∧ availOf (chooseSelection jonesPool [0, 2] 2).1 2 = false
    ∧ (chooseSelection jonesPool [0, 2] 2).1.get? 0 = jonesPool.get? 0 :=
  ⟨(jones_ambiguous_selection jonesPool 0 2 (by decide)).1,
   (jones_ambiguous_selection jonesPool 0 2 (by decide)).2.1,
   (jones_ambiguous_selection jonesPool 0 2 (by decide)).2.2.1,
   (jones_ambiguous_selection jonesPool 0 2 (by decide)).2.2.2 0 (by decide)⟩

/-- C9: a query whose stripped form has an internal space and a letter
but normalizes to the empty string makes the substring tier match every
available player; the result is `Unique` when exactly one player is
available and `Ambiguous` over the whole available pool when two or more
are. -/
theorem empty_normalized_query_matches_all (rows : List Row) (q : List Nat)
    (hsp : (pyStrip q).contains 32 = true)
    (hal : (pyStrip q).any isAsciiAlpha = true)
    (hn : normalize_name (pyStrip q) = []) :
    tier1 rows (pyStrip q) = availIdxs rows
    ∧ (∀ i, availIdxs rows = [i] → resolve rows q = .unique i)
    ∧ (2 ≤ (availIdxs rows).length →
        resolve rows q = .ambiguous (availIdxs rows)) := by
  have ht1 : tier1 rows (pyStrip q) = availIdxs rows := by
    unfold tier1 availIdxs
    apply idxFilter_congr
    intro r
    rw [hn, containsSub_nil, Bool.and_true]
  have hcand : resolveCandidates rows q
      = (if (availIdxs rows).isEmpty then tier2 rows (pyStrip q)
         else availIdxs rows) := by
    rw [resolveCandidates_space rows q (by rw [hsp, hal]; rfl), ht1]
  refine ⟨ht1, ?_, ?_⟩
  · intro i hi
    have hres : resolveCandidates rows q = [i] := by
      rw [hcand, hi]
      rfl
    unfold resolve
    rw [hres]
  · intro h2
    cases hl : availIdxs rows with
    | nil => rw [hl] at h2; simp at h2
    | cons a tl =>
      cases tl with
      | nil => rw [hl] at h2; simp at h2
      | cons b t =>
        have hres : resolveCandidates rows q = a :: b :: t := by
          rw [hcand, hl]
          rfl
        unfold resolve
        rw [hres]

/-- C9 witness: the all-suffix query "jr iii" is ambiguous over every
player of the three-player pool. -/
theorem empty_normalized_query_witness :
    resolve jonesPool (str "jr iii") = .ambiguous [0, 1, 2] := by
  have h := (empty_normalized_query_matches_all jonesPool (str "jr iii")
    (by decide) (by decide) (by decide)).2.2 (by decide)
  rw [show availIdxs jonesPool = [0, 1, 2] from by decide] at h
  exact h

/-- C10 counterexample: an available player whose last-name token carries
an apostrophe, queried by exactly that raw surname, does not resolve to
no-match when another available player's last-name token equals the
letters-only form — the query resolves to that other player instead. -/
theorem apostrophe_surname_counterexample :
    obrienPool.get? 0 = some obrienRow0
    ∧ obrienRow0.available = true
    ∧ obrienRow0.lname.contains 39 = true
    ∧ obrienRow0.lname.contains 32 = false
    ∧ resolve obrienPool obrienRow0.lname = .unique 1
    ∧ (MatchResult.unique 1 ≠ .noMatch) := by
  refine ⟨by decide, by decide, by decide, by decide, by decide, by decide⟩

/-- C10 (amended): the apostrophe-surnamed player itself can never be a
candidate for the query equal to its own last-name token (the fallback
strips the apostrophe from the query but not from the stored token), and
the query resolves to no-match precisely when no available player's
last-name token equals the letters-only lowercased query. -/
theorem apostrophe_surname_resolution (rows : List Row) (i : Nat) (r : Row)
    (hget : rows.get? i = some r)
    (hav : r.available = true)
    (hder : r.lname = last_name r.player.fullName)
    (hap : r.lname.contains 39 = true) :
    i ∉ resolveCandidates rows r.lname
    ∧ ((∀ j s, rows.get? j = some s → s.available = true →
          s.lname ≠ stripLetters r.lname) →
        resolve rows r.lname = .noMatch) := by
  have hnosp : ∀ c ∈ r.lname, isPySpace c = false := by
    rw [hder]
    intro c hc
    exact (last_name_chars _ c hc).1
  have hstrip : pyStrip r.lname = r.lname := pyStrip_eq_self_of_no_space hnosp
  have hc32 : r.lname.contains 32 = false := by
    by_contra hcc
    rw [Bool.not_eq_false] at hcc
    have h32 : (32 : Nat) ∈ r.lname := contains_true_iff.mp hcc
    have := hnosp 32 h32
    rw [isPySpace_32] at this
    exact Bool.noConfusion this
  have hneq : r.lname ≠ stripLetters r.lname := by
    intro heq
    have h39 : (39 : Nat) ∈ r.lname := contains_true_iff.mp hap
    rw [heq] at h39
    exact isAsciiAlpha_ne_39 (stripLetters_chars _ 39 h39) rfl
  have hcand : resolveCandidates rows r.lname = tier2 rows r.lname := by
    rw [resolveCandidates_no_space rows _ (by rw [hstrip]; exact hc32), hstrip]
  constructor
  · intro hmem
    rw [hcand] at hmem
    unfold tier2 at hmem
    rcases mem_idxFilter.mp hmem with ⟨s, hgs, hps⟩
    rw [hget] at hgs
    cases Option.some.inj hgs
    rcases Bool.and_eq_true _ _ ▸ hps with ⟨_, hbeq⟩
    exact hneq (eq_of_beq hbeq)
  · intro hno
    have htier : tier2 rows r.lname = [] := by
      rw [List.eq_nil_iff_forall_not_mem]
      intro j hj
      unfold tier2 at hj
      rcases mem_idxFilter.mp hj with ⟨s, hgs, hps⟩
      rcases Bool.and_eq_true _ _ ▸ hps with ⟨hsa, hbeq⟩
      exact hno j s hgs hsa (eq_of_beq hbeq)
    unfold resolve
    rw [hcand, htier]

/-- C10 witness: in the pool holding only the apostrophe-surnamed player,
the query equal to his raw surname resolves to no match. -/
theorem apostrophe_surname_resolution_witness :
    0 ∉ resolveCandidates obrienSolo obrienRow0.lname
    ∧ resolve obrienSolo obrienRow0.lname = .noMatch := by
  have h := apostrophe_surname_resolution obrienSolo 0 obrienRow0
    (by decide) (by decide) (by decide) (by decide)
  refine ⟨h.1, h.2 ?_⟩
  intro j s hgs hsav
  match j, hgs with
  | 0, hgs =>
    have hs : s = obrienRow0 := by
      have : some obrienRow0 = some s := by
        rw [← hgs]
        decide
      exact (Option.some.inj this).symm
    subst hs
    decide
  | k + 1, hgs =>
    simp [obrienSolo] at hgs

/-- C3 counterexample: a source with the name column and the adjusted
points column but no position column loads successfully — the position
column is never checked during `load_df`, so the interactive loop starts. -/
theorem load_missing_position_counterexample :
    (load_df_cols [str "Full Name", str "Adjusted Projected Points"]).isOk = true
    ∧ (str "Position") ∉ [str "Full Name", str "Adjusted Projected Points"] := by
  refine ⟨by decide, by decide⟩

/-- C3 (amended): the load fails precisely when (after the column
renaming) both points columns are absent — the explicit `LoadError`
message — or, points being present, the name column is absent (an
uncaught key lookup error, also fatal before the loop); the position
column plays no role, so a source missing only it still loads and the
loop starts. -/
theorem load_success_characterization (cols : List (List Nat)) :
    (load_df_cols cols).isOk
      = (((renameCols cols).contains (str "AdjPts")
          || (renameCols cols).contains (str "ProjPts"))
         && (renameCols cols).contains (str "Full Name"))
    ∧ (load_df_cols cols = .error .valueErrorNoPoints
        ↔ ((renameCols cols).contains (str "AdjPts") = false
           ∧ (renameCols cols).contains (str "ProjPts") = false)) := by
  have hkc : ∀ c : List Nat, c ∈ keepCols →
      ((keepCols.filter (fun x => (renameCols cols).contains x)).contains c)
        = (renameCols cols).contains c := by
    intro c hc
    cases h : (renameCols cols).contains c with
    | true =>
      exact contains_true_iff.mpr (List.mem_filter.mpr ⟨hc, h⟩)
    | false =>
      cases hcontra : (keepCols.filter (fun x => (renameCols cols).contains x)).contains c with
      | true =>
        have := (List.mem_filter.mp (contains_true_iff.mp hcontra)).2
        rw [h] at this
        exact Bool.noConfusion this
      | false => rfl
  have hadj := hkc (str "AdjPts") (by decide)
  have hproj := hkc (str "ProjPts") (by decide)
  have hname := hkc (str "Full Name") (by decide)
  simp only [load_df_cols]
  rw [hadj, hproj, hname]
  cases ha : (renameCols cols).contains (str "AdjPts") with
  | true =>
    cases hn : (renameCols cols).contains (str "Full Name") with
    | true => exact ⟨rfl, by simp⟩
    | false => exact ⟨rfl, by simp⟩
  | false =>
    cases hp : (renameCols cols).contains (str "ProjPts") with
    | true =>
      cases hn : (renameCols cols).contains (str "Full Name") with
      | true => exact ⟨rfl, by simp⟩
      | false => exact ⟨rfl, by simp⟩
    | false => exact ⟨rfl, by simp⟩

/-- C3 witness: the characterization at a concrete header list lacking
the position column (load succeeds) and at one lacking both points
columns (the explicit LoadError). -/
theorem load_success_characterization_witness :
    (load_df_cols [str "Full Name", str "Adjusted Projected Points"]).isOk = true
    ∧ (load_df_cols [str "Full Name", str "Position"]
        = .error .valueErrorNoPoints) := by
  constructor
  · rw [(load_success_characterization
      [str "Full Name", str "Adjusted Projected Points"]).1]
    decide
  · exact (load_success_characterization [str "Full Name", str "Position"]).2.mpr
      (by decide)

end DraftHelper
